import Mathlib

/-
  Verification development for the Subtitle Birth: VideoComm pipeline.

  Shallow embedding of the core pipeline operations:
  app/pipeline.py : timestamp rendering, SRT serialization, the
  alignment-preserving translation step (chunking, line recovery,
  numbering stripping, padding fallback, positional assignment) and the
  compositing output naming / failure message.
  app/main.py : job record creation and the background burn task that
  settles a job into a terminal state.

  Python strings are modelled as List Char; floats carried by ASR
  segments are modelled as rationals; the external collaborators
  (Gemini, ffmpeg) are modelled as oracles / result values supplied as
  arguments.
-/

namespace VideoComm

/-- Generic splitter: splitSep sep l cuts l at every occurrence of sep,
keeping empty pieces, exactly like the Python str.split with an explicit
separator. -/
def splitSep {α : Type} [DecidableEq α] (sep : α) : List α → List (List α)
  | [] => [[]]
  | a :: as =>
    if a = sep then [] :: splitSep sep as
    else (a :: (splitSep sep as).headI) :: (splitSep sep as).tail

/-- Generic joiner: joinSep sep gs concatenates the groups with sep
between them, exactly like the Python sep.join. -/
def joinSep {α : Type} (sep : α) : List (List α) → List α
  | [] => []
  | [g] => g
  | g :: g2 :: gs => g ++ sep :: joinSep sep (g2 :: gs)

/-- Python whitespace test used by str.strip (ASCII fragment). -/
def pyWs (c : Char) : Bool :=
  c == ' ' || c == '\t' || c == '\n' || c == '\r' || c == '\x0b' || c == '\x0c'

/-- Python str.strip: remove leading and trailing whitespace. -/
def pyStrip (cs : List Char) : List Char :=
  ((cs.dropWhile pyWs).reverse.dropWhile pyWs).reverse

/-- Python str.rstrip with argument "." : remove trailing period characters. -/
def rstripDots (cs : List Char) : List Char :=
  (cs.reverse.dropWhile (fun c => c == '.')).reverse

/-- ASCII decimal digit test. -/
def isDigitCh (c : Char) : Bool := decide ('0' ≤ c) && decide (c ≤ '9')

/-- Python str.isdigit: nonempty and all digits. -/
def pyIsDigit (cs : List Char) : Bool := !cs.isEmpty && cs.all isDigitCh

/-- Decimal digit character for a digit value. -/
def dchar (d : Nat) : Char := Char.ofNat (48 + d)

/-- Little-endian base 10 digits, with explicit fuel so that the
recursion is structural and evaluates inside the kernel. -/
def digitsRev : Nat → Nat → List Nat
  | 0, _ => []
  | _ + 1, 0 => []
  | fuel + 1, n + 1 => (n + 1) % 10 :: digitsRev fuel ((n + 1) / 10)

/-- Decimal rendering of a natural number, as Python str(n) produces for
nonnegative n. -/
def natChars (n : Nat) : List Char :=
  if n = 0 then [dchar 0] else ((digitsRev n n).map dchar).reverse

/-- Zero padding to width w, as the Python format field 0wd produces:
numbers wider than w are printed in full. -/
def padZero (w : Nat) (cs : List Char) : List Char :=
  List.replicate (w - cs.length) '0' ++ cs

/-- Python int() applied to a real value: truncation toward zero. -/
def pyInt (q : ℚ) : Int := if 0 ≤ q then ⌊q⌋ else ⌈q⌉

/-- pipeline.py _srt_time: ms = int(seconds * 1000) and then the
formatted fields ms div 3600000, ms mod 3600000 div 60000,
ms mod 60000 div 1000 and ms mod 1000, zero padded to 2,2,2,3 digits.
ASR timestamps are nonnegative, so the embedding clamps the millisecond
count at zero via Int.toNat. -/
def _srt_time (seconds : ℚ) : List Char :=
  let ms := (pyInt (seconds * 1000)).toNat
  padZero 2 (natChars (ms / 3600000)) ++ ':' ::
    (padZero 2 (natChars (ms % 3600000 / 60000)) ++ ':' ::
      (padZero 2 (natChars (ms % 60000 / 1000)) ++ ',' ::
        padZero 3 (natChars (ms % 1000))))

/-- One ASR segment: the Python dict with keys start, end, text and the
optional original_text snapshot. The field stop models the key end,
which is a reserved word here. -/
structure Segment where
  start : ℚ
  stop : ℚ
  text : List Char
  original_text : Option (List Char) := none
deriving DecidableEq

/-- The " --> " separator of an SRT range line. -/
def arrowSep : List Char := [' ', '-', '-', '>', ' ']

/-- The range line of one SRT block. -/
def tsLine (seg : Segment) : List Char :=
  _srt_time seg.start ++ arrowSep ++ _srt_time seg.stop

/-- pipeline.py _write_srt body for one segment: the f-string
index newline range-line newline stripped-text newline newline. -/
def blockChars (i : Nat) (seg : Segment) : List Char :=
  natChars i ++ '\n' :: (tsLine seg ++ '\n' :: (pyStrip seg.text ++ '\n' :: ['\n']))

/-- pipeline.py _write_srt loop, with enumerate starting index. -/
def writeSrtFrom : Nat → List Segment → List Char
  | _, [] => []
  | i, seg :: rest => blockChars i seg ++ writeSrtFrom (i + 1) rest

/-- pipeline.py _write_srt: blocks numbered from 1, concatenated. -/
def _write_srt (segs : List Segment) : List Char := writeSrtFrom 1 segs

/-- pipeline.py chunk_size = 80: translate at most 80 lines per call. -/
def chunk_size : Nat := 80

/-- Number of iterations of the loop for start in range(0, n, chunk_size). -/
def numChunks (n : Nat) : Nat := (n + chunk_size - 1) / chunk_size

/-- pipeline.py numbering strip for one recovered line: if the first
space-delimited token, with trailing periods removed, is all digits,
drop that token and rejoin the remaining tokens with single spaces;
otherwise keep the line unchanged. -/
def stripNumberLine (ln : List Char) : List Char :=
  match splitSep ' ' ln with
  | [] => ln
  | w :: ws => if pyIsDigit (rstripDots w) then joinSep ' ' ws else ln

/-- pipeline.py recovery of lines from one collaborator response:
split the response text on newlines, strip each line, discard blank
lines, then strip a leading number token from each surviving line. -/
def recoverLines (resp : List Char) : List (List Char) :=
  (((splitSep '\n' resp).map pyStrip).filter (fun l => !l.isEmpty)).map stripNumberLine

/-- The full cleaned_all list accumulated over all chunks: one
collaborator response per chunk index. -/
def cleanedAll (n : Nat) (resps : Nat → List Char) : List (List Char) :=
  ((List.range (numChunks n)).map (fun k => recoverLines (resps k))).flatten

/-- pipeline.py padding loop: while len(cleaned) is less than the number
of segments, append the text of the segment at position len(cleaned).
Fuel-structured so that the loop runs at most segs.length steps, which
always suffices. -/
def padMissingAux : Nat → List Segment → List (List Char) → List (List Char)
  | 0, _, cleaned => cleaned
  | fuel + 1, segs, cleaned =>
    if h : cleaned.length < segs.length then
      padMissingAux fuel segs (cleaned ++ [(segs.get ⟨cleaned.length, h⟩).text])
    else cleaned

/-- pipeline.py padding fallback entry point. -/
def padMissing (segs : List Segment) (cleaned : List (List Char)) : List (List Char) :=
  padMissingAux segs.length segs cleaned

/-- pipeline.py assignment loop: for seg, tr in zip(segments, cleaned):
seg text becomes tr. The zip stops at the shorter list and the trailing
segments keep their current text. -/
def assignTexts (segs : List Segment) (cleaned : List (List Char)) : List Segment :=
  List.zipWith (fun seg t => { seg with text := t }) segs cleaned ++ segs.drop cleaned.length

/-- pipeline.py translation step on the non-empty path: snapshot
original_text, recover lines chunk by chunk from the collaborator
responses, pad a shortfall with original text, and assign by position. -/
def translateSegments (segs : List Segment) (resps : Nat → List Char) : List Segment :=
  let withOrig := segs.map fun s => { s with original_text := some s.text }
  let cleaned := cleanedAll withOrig.length resps
  assignTexts withOrig (padMissing withOrig cleaned)

/-- Result of the transcription stage: final segments, the SRT file
name and the SRT file content. -/
structure TranscribeResult where
  segments : List Segment
  srtName : List Char
  srtContent : List Char
deriving DecidableEq

/-- pipeline.py srt_path name: stem dot target-language dot srt. -/
def srtFileName (stem lang : List Char) : List Char :=
  stem ++ '.' :: (lang ++ '.' :: ['s', 'r', 't'])

/-- pipeline.py transcribe_video after the ASR call, as a function of
the ASR segments and the translation collaborator responses: if there
are no segments or every segment text strips to empty, skip translation
and write the SRT directly; otherwise translate and write. -/
def transcribe_video (stem : List Char) (segs : List Segment)
    (resps : Nat → List Char) (target_lang : List Char) : TranscribeResult :=
  if segs = [] ∨ ∀ s ∈ segs, pyStrip s.text = [] then
    ⟨segs, srtFileName stem target_lang, _write_srt segs⟩
  else
    let translated := translateSegments segs resps
    ⟨translated, srtFileName stem target_lang, _write_srt translated⟩

/-- Job lifecycle states stored in main.py JOBS. -/
inductive JobStatus
  | burning
  | done
  | error
deriving DecidableEq

/-- One JOBS record from main.py. -/
structure Job where
  status : JobStatus
  transcript : List Char
  output : Option (List Char)
  error : Option (List Char)
deriving DecidableEq

/-- main.py upload_video: the record created after synchronous
transcription, with status burning. -/
def mkJob (transcript : List Char) : Job :=
  ⟨JobStatus.burning, transcript, none, none⟩

/-- main.py _background_burn: on success update the record to done with
the output name; on any exception update it to error with the message. -/
def _background_burn (burnResult : Except (List Char) (List Char)) (job : Job) : Job :=
  match burnResult with
  | Except.ok out => { job with status := JobStatus.done, output := some out }
  | Except.error e => { job with status := JobStatus.error, error := some e }

/-- Status observed by the n-th poll of a job whose single background
update lands at time t: reads before t see the freshly created record,
reads from t on see the updated record. -/
def statusTrace (transcript : List Char) (r : Except (List Char) (List Char))
    (t : Nat) : Nat → JobStatus :=
  fun n => if n < t then (mkJob transcript).status else (_background_burn r (mkJob transcript)).status

/-- A Python pathlib path, reduced to the pieces the pipeline reads:
the stem and the extension. -/
structure PyPath where
  stem : List Char
  ext : List Char
deriving DecidableEq

/-- pipeline.py burn_subtitles output name: the f-string
stem dot target-language underscore burned dot mp4. -/
def burnOutName (video : PyPath) (target_lang : List Char) : List Char :=
  video.stem ++ '.' :: (target_lang ++ ("_burned.mp4").data)

/-- pipeline.py burn_subtitles error message: the RuntimeError text
wrapping the captured encoder diagnostic output. -/
def ffmpegErrMsg (stderr : List Char) : List Char :=
  ("ffmpeg error:").data ++ '\n' :: (stderr ++ ['\n'])

/-- pipeline.py burn_subtitles as a function of the encoder outcome:
success yields the output name, failure raises the wrapped message. -/
def burn_subtitles_result (enc : Except (List Char) Unit) (video : PyPath)
    (target_lang : List Char) : Except (List Char) (List Char) :=
  match enc with
  | Except.ok _ => Except.ok (burnOutName video target_lang)
  | Except.error stderr => Except.error (ffmpegErrMsg stderr)

/-- main.py upload flow reduced to the pieces the claims read: the
synchronous response is the job identifier, computed before the
background task runs; the final job record is the created record
updated once by _background_burn. -/
def uploadFlow (jobId transcript : List Char)
    (r : Except (List Char) (List Char)) : List Char × Job :=
  (jobId, _background_burn r (mkJob transcript))

/-- One parsed SRT block: index, the two timestamp strings of the range
line, and the caption text. -/
structure Block where
  index : Nat
  startTs : List Char
  endTs : List Char
  text : List Char
deriving DecidableEq

/-- Digit value of an ASCII digit character. -/
def digitVal (c : Char) : Nat := c.toNat - 48

/-- Parse a nonempty all-digit line as a decimal number. -/
def parseNat (cs : List Char) : Option Nat :=
  if !cs.isEmpty && cs.all isDigitCh then
    some (cs.foldl (fun a c => 10 * a + digitVal c) 0)
  else none

/-- Parse an SRT range line: the start timestamp runs to the first
space, then the literal arrow separator, then the end timestamp. -/
def parseRange (l : List Char) : Option (List Char × List Char) :=
  match l.dropWhile (fun c => !(c == ' ')) with
  | ' ' :: '-' :: '-' :: '>' :: ' ' :: e => some (l.takeWhile (fun c => !(c == ' ')), e)
  | _ => none

/-- Parse one blank-line-delimited group of lines as an SRT block:
index line, range line, remaining lines joined as the caption text. -/
def parseGroup (g : List (List Char)) : Option Block :=
  match g with
  | idxL :: tsL :: txtLines =>
    match parseNat idxL, parseRange tsL with
    | some i, some se => some ⟨i, se.1, se.2, joinSep '\n' txtLines⟩
    | _, _ => none
  | _ => none

/-- Parse a list of groups, failing if any group fails. -/
def parseGroups : List (List (List Char)) → Option (List Block)
  | [] => some []
  | g :: gs =>
    match parseGroup g, parseGroups gs with
    | some b, some bs => some (b :: bs)
    | _, _ => none

/-- Modelled from the spec: a minimal standard SRT consumer, absent
from the repository itself. Per the spec subtitle file format, the file
is plain text made of sequential numbered blocks, each an index line, a
range line, caption text, and a blank-line separator; blank lines
between blocks are discarded. -/
def parseSrt (file : List Char) : Option (List Block) :=
  parseGroups (((splitSep ([] : List Char) (splitSep '\n' file))).filter (fun g => !g.isEmpty))

/-- Expected parsed blocks for a segment list serialized from a given
starting index: sequential indices and the rendered timestamps, with
the stripped caption text. -/
def expectedBlocks : Nat → List Segment → List Block
  | _, [] => []
  | i, s :: rest =>
    ⟨i, _srt_time s.start, _srt_time s.stop, pyStrip s.text⟩ :: expectedBlocks (i + 1) rest

/-- Line list produced by splitting the serialized SRT text on
newlines, block by block. -/
def blockLinesFrom : Nat → List Segment → List (List Char)
  | _, [] => [[]]
  | i, s :: rest =>
    natChars i :: tsLine s :: (splitSep '\n' (pyStrip s.text) ++ [] :: blockLinesFrom (i + 1) rest)

/-- Caption lines of one segment as they appear in its group: none for
empty stripped text, otherwise the newline split of the stripped text. -/
def txtLinesOf (s : Segment) : List (List Char) :=
  if pyStrip s.text = [] then [] else splitSep '\n' (pyStrip s.text)

/-- Expected nonempty groups of the serialized SRT text. -/
def groupsExpected : Nat → List Segment → List (List (List Char))
  | _, [] => []
  | i, s :: rest => (natChars i :: tsLine s :: txtLinesOf s) :: groupsExpected (i + 1) rest

/-- Modelled from the spec: the timestamp format named by the spec,
fields hours, minutes, seconds, milliseconds of the truncated
millisecond count, zero padded to 2, 2, 2 and 3 digits. -/
def specTimestamp (ms : Nat) : List Char :=
  padZero 2 (natChars (ms / 3600000)) ++ ':' ::
    (padZero 2 (natChars (ms / 60000 % 60)) ++ ':' ::
      (padZero 2 (natChars (ms / 1000 % 60)) ++ ',' ::
        padZero 3 (natChars (ms % 1000))))

/-- Modelled from the spec: the output naming convention claimed for
the compositing stage, stem dot language underscore burned dot
extension, with the extension taken from the source video. -/
def specBurnName (stem lang ext : List Char) : List Char :=
  stem ++ '.' :: (lang ++ ("_burned.").data ++ ext)

/-- Modelled from the spec: the numbering strip as the claim words it,
with the first token delimited by whitespace rather than by a space:
if that token, with trailing periods removed, is all digits, remove the
token and the delimiting whitespace. -/
def specStripNumberWs (ln : List Char) : List Char :=
  let w := ln.takeWhile (fun c => !pyWs c)
  if pyIsDigit (rstripDots w) then (ln.drop w.length).dropWhile pyWs else ln

/-! Generic lemmas about the splitter and joiner. -/

theorem headI_append {α : Type} [Inhabited α] {xs : List α} (ys : List α) (h : xs ≠ []) :
    (xs ++ ys).headI = xs.headI := by
  cases xs with
  | nil => exact absurd rfl h
  | cons x xs => rfl

theorem tail_append_of_ne_nil {α : Type} {xs : List α} (ys : List α) (h : xs ≠ []) :
    (xs ++ ys).tail = xs.tail ++ ys := by
  cases xs with
  | nil => exact absurd rfl h
  | cons x xs => rfl

theorem splitSep_ne_nil {α : Type} [DecidableEq α] (sep : α) (l : List α) :
    splitSep sep l ≠ [] := by
  cases l with
  | nil => simp [splitSep]
  | cons a as => by_cases h : a = sep <;> simp [splitSep, h]

theorem splitSep_cons_of_ne {α : Type} [DecidableEq α] {sep c : α} (l : List α) (h : ¬ c = sep) :
    splitSep sep (c :: l) =
      (c :: (splitSep sep l).headI) :: (splitSep sep l).tail := by
  simp [splitSep, h]

theorem splitSep_append_cons {α : Type} [DecidableEq α] (sep : α) (a b : List α) :
    splitSep sep (a ++ sep :: b) = splitSep sep a ++ splitSep sep b := by
  induction a with
  | nil => simp [splitSep]
  | cons c a ih =>
    by_cases h : c = sep
    · subst h
      simp [splitSep, ih]
    · have hS := splitSep_ne_nil sep a
      rw [List.cons_append, splitSep_cons_of_ne _ h, splitSep_cons_of_ne _ h, ih,
        headI_append _ hS, tail_append_of_ne_nil _ hS, List.cons_append]

theorem splitSep_single {α : Type} [DecidableEq α] {sep : α} {a : List α} (h : sep ∉ a) :
    splitSep sep a = [a] := by
  induction a with
  | nil => simp [splitSep]
  | cons c a ih =>
    have hc : ¬ c = sep := fun e => h (by rw [e]; exact List.mem_cons_self _ _)
    have ha : sep ∉ a := fun m => h (List.mem_cons_of_mem _ m)
    simp [splitSep, hc, ih ha]

theorem splitSep_exists_cons {α : Type} [DecidableEq α] (sep : α) (l : List α) :
    ∃ g gs, splitSep sep l = g :: gs := by
  cases e : splitSep sep l with
  | nil => exact absurd e (splitSep_ne_nil sep l)
  | cons g gs => exact ⟨g, gs, rfl⟩

theorem joinSep_splitSep {α : Type} [DecidableEq α] (sep : α) (l : List α) :
    joinSep sep (splitSep sep l) = l := by
  induction l with
  | nil => rfl
  | cons c l ih =>
    obtain ⟨g, gs, hg⟩ := splitSep_exists_cons sep l
    by_cases h : c = sep
    · subst h
      rw [hg] at ih
      simp [splitSep, hg, joinSep, ih]
    · rw [splitSep_cons_of_ne _ h, hg]
      cases gs with
      | nil =>
        rw [hg] at ih
        simp [joinSep] at ih ⊢
        simp [ih]
      | cons g2 gs2 =>
        rw [hg] at ih
        simp only [List.headI, List.tail, joinSep] at ih ⊢
        rw [List.cons_append, ih]

theorem splitSep_headI {α : Type} [DecidableEq α] (sep : α) (l : List α) :
    (splitSep sep l).headI = l.takeWhile (fun x => !(x == sep)) := by
  induction l with
  | nil => rfl
  | cons c l ih =>
    by_cases h : c = sep
    · subst h
      simp [splitSep]
    · simp [splitSep, h, ih]

theorem joinSep_tail_splitSep {α : Type} [DecidableEq α] (sep : α) (l : List α) :
    joinSep sep (splitSep sep l).tail =
      l.drop ((l.takeWhile (fun x => !(x == sep))).length + 1) := by
  induction l with
  | nil => rfl
  | cons c l ih =>
    by_cases h : c = sep
    · subst h
      simp [splitSep, joinSep_splitSep]
    · simp [splitSep, h, ih]

/-! Lemmas about the translation assignment step. -/

theorem padMissingAux_eq (fuel : Nat) (segs : List Segment) :
    ∀ cleaned : List (List Char), segs.length - cleaned.length ≤ fuel →
      padMissingAux fuel segs cleaned =
        cleaned ++ (segs.map Segment.text).drop cleaned.length := by
  induction fuel with
  | zero =>
    intro cleaned h
    have hle : (segs.map Segment.text).length ≤ cleaned.length := by
      rw [List.length_map]; omega
    simp [padMissingAux, List.drop_eq_nil_of_le hle]
  | succ fuel ih =>
    intro cleaned h
    rw [padMissingAux]
    by_cases hlt : cleaned.length < segs.length
    · rw [dif_pos hlt, ih _ (by simp; omega)]
      have hm : cleaned.length < (segs.map Segment.text).length := by simpa using hlt
      rw [List.drop_eq_getElem_cons hm]
      simp [List.append_assoc]
    · rw [dif_neg hlt]
      have hle : (segs.map Segment.text).length ≤ cleaned.length := by
        rw [List.length_map]; omega
      simp [List.drop_eq_nil_of_le hle]

theorem padMissing_eq (segs : List Segment) (cleaned : List (List Char)) :
    padMissing segs cleaned = cleaned ++ (segs.map Segment.text).drop cleaned.length :=
  padMissingAux_eq segs.length segs cleaned (Nat.sub_le _ _)

theorem map_text_zipWith (segs : List Segment) :
    ∀ cleaned : List (List Char),
      (List.zipWith (fun seg t => { seg with text := t }) segs cleaned).map Segment.text
        = cleaned.take segs.length := by
  induction segs with
  | nil => intro cleaned; simp
  | cons s segs ih =>
    intro cleaned
    cases cleaned with
    | nil => simp
    | cons c cl => simp [ih]

theorem length_assignTexts (segs : List Segment) (cleaned : List (List Char)) :
    (assignTexts segs cleaned).length = segs.length := by
  simp [assignTexts]
  omega

theorem map_text_assignTexts (segs : List Segment) (cleaned : List (List Char)) :
    (assignTexts segs cleaned).map Segment.text =
      cleaned.take segs.length ++ (segs.map Segment.text).drop cleaned.length := by
  simp [assignTexts, map_text_zipWith]

theorem map_text_withOrig (segs : List Segment) :
    (segs.map fun s => { s with original_text := some s.text }).map Segment.text =
      segs.map Segment.text := by
  induction segs with
  | nil => rfl
  | cons s segs ih => simp [ih]

theorem translate_text_spec (segs : List Segment) (resps : Nat → List Char) :
    (translateSegments segs resps).length = segs.length ∧
    (translateSegments segs resps).map Segment.text =
      (cleanedAll segs.length resps).take segs.length ++
        (segs.map Segment.text).drop (cleanedAll segs.length resps).length := by
  have hwo : (segs.map fun s => { s with original_text := some s.text }).length = segs.length :=
    List.length_map _ _
  constructor
  · simp only [translateSegments]
    rw [length_assignTexts, hwo]
  · simp only [translateSegments]
    rw [map_text_assignTexts, padMissing_eq, map_text_withOrig, hwo]
    set cl := cleanedAll segs.length resps with hcl
    set tx := segs.map Segment.text with htx
    have htxn : tx.length = segs.length := by simp [htx]
    by_cases hmn : cl.length ≤ segs.length
    · have hD : tx.drop (cl ++ tx.drop cl.length).length = [] := by
        apply List.drop_eq_nil_of_le
        simp [htxn]
        omega
      have hlen2 : (cl ++ tx.drop cl.length).length ≤ segs.length := by
        simp [htxn]
        omega
      rw [List.take_of_length_le hlen2, hD, List.append_nil, List.take_of_length_le hmn]
    · have hD : tx.drop cl.length = [] := List.drop_eq_nil_of_le (by rw [htxn]; omega)
      rw [hD]
      simp only [List.append_nil]
      rw [hD]
      simp

/-- C1: if the recovered translated lines number m with m strictly fewer
than the n segments, the translation step completes without error: the
final texts are the m recovered lines, in order, followed by the
original texts of the trailing segments. -/
theorem short_translation_pads_with_original (segs : List Segment) (resps : Nat → List Char)
    (h : (cleanedAll segs.length resps).length < segs.length) :
    (translateSegments segs resps).length = segs.length ∧
    (translateSegments segs resps).map Segment.text =
      cleanedAll segs.length resps ++
        (segs.map Segment.text).drop (cleanedAll segs.length resps).length := by
  obtain ⟨h1, h2⟩ := translate_text_spec segs resps
  refine ⟨h1, ?_⟩
  rw [h2, List.take_of_length_le h.le]

/-- Witness for C1 at a concrete input: two segments, one recovered line. -/
theorem short_translation_pads_with_original_w :
    (cleanedAll 2 (fun _ => ['H', 'i'])).length < 2 ∧
      (translateSegments [⟨0, 1, ['x'], none⟩, ⟨1, 2, ['a'], none⟩]
          (fun _ => ['H', 'i'])).map Segment.text = [['H', 'i'], ['a']] := by
  refine ⟨by decide, ?_⟩
  rw [(short_translation_pads_with_original
    [⟨0, 1, ['x'], none⟩, ⟨1, 2, ['a'], none⟩] (fun _ => ['H', 'i']) (by decide)).2]
  decide

/-- C2: if the recovered translated lines number exactly one per
segment, segment i receives recovered line i, in the original order. -/
theorem exact_translation_aligns (segs : List Segment) (resps : Nat → List Char)
    (h : (cleanedAll segs.length resps).length = segs.length) :
    (translateSegments segs resps).length = segs.length ∧
    (translateSegments segs resps).map Segment.text = cleanedAll segs.length resps := by
  obtain ⟨h1, h2⟩ := translate_text_spec segs resps
  refine ⟨h1, ?_⟩
  rw [h2, List.take_of_length_le h.le,
    List.drop_eq_nil_of_le (by simp [h]), List.append_nil]

/-- Witness for C2 at a concrete input: one segment, one recovered line. -/
theorem exact_translation_aligns_w :
    (cleanedAll 1 (fun _ => ['H', 'e', 'y'])).length = 1 ∧
      (translateSegments [⟨0, 1, ['x'], none⟩]
          (fun _ => ['H', 'e', 'y'])).map Segment.text = [['H', 'e', 'y']] := by
  refine ⟨by decide, ?_⟩
  rw [(exact_translation_aligns [⟨0, 1, ['x'], none⟩] (fun _ => ['H', 'e', 'y'])
    (by decide)).2]
  decide

/-- C9: if the recovered translated lines number m with m strictly more
than the n segments, no error is raised: segment i receives recovered
line i for i below n and the surplus lines are silently discarded. -/
theorem surplus_translation_discarded (segs : List Segment) (resps : Nat → List Char)
    (h : segs.length < (cleanedAll segs.length resps).length) :
    (translateSegments segs resps).length = segs.length ∧
    (translateSegments segs resps).map Segment.text =
      (cleanedAll segs.length resps).take segs.length := by
  obtain ⟨h1, h2⟩ := translate_text_spec segs resps
  refine ⟨h1, ?_⟩
  rw [h2, List.drop_eq_nil_of_le (by simp; omega), List.append_nil]

/-- Witness for C9 at a concrete input: one segment, two recovered lines. -/
theorem surplus_translation_discarded_w :
    1 < (cleanedAll 1 (fun _ => ['A', '\n', 'B'])).length ∧
      (translateSegments [⟨0, 1, ['x'], none⟩]
          (fun _ => ['A', '\n', 'B'])).map Segment.text = [['A']] := by
  refine ⟨by decide, ?_⟩
  rw [(surplus_translation_discarded [⟨0, 1, ['x'], none⟩] (fun _ => ['A', '\n', 'B'])
    (by decide)).2]
  decide

/-- C10 counterexample: the numbering strip keys on the first token
delimited by a space, not by arbitrary whitespace. On a line whose
first whitespace-delimited token is a dotted number followed by a tab,
the code keeps the line unchanged while the claimed
whitespace-delimited reading would remove the token. -/
theorem numbering_strip_ws_token_cex :
    stripNumberLine ['1', '2', '.', '\t', 'h', 'i'] = ['1', '2', '.', '\t', 'h', 'i'] ∧
      specStripNumberWs ['1', '2', '.', '\t', 'h', 'i'] = ['h', 'i'] ∧
      stripNumberLine ['1', '2', '.', '\t', 'h', 'i'] ≠
        specStripNumberWs ['1', '2', '.', '\t', 'h', 'i'] := by
  decide

/-- C10 as amended: for every recovered line whose first
space-delimited token, after removing trailing periods, is a nonempty
string of digits, the numbering strip removes that entire first token
together with the following space, even when the token is genuine
content such as a year; every other line is kept unchanged. -/
theorem numbering_strip_drops_first_space_token (ln : List Char) :
    (pyIsDigit (rstripDots (ln.takeWhile (fun c => !(c == ' ')))) = true →
      stripNumberLine ln = ln.drop ((ln.takeWhile (fun c => !(c == ' '))).length + 1)) ∧
    (pyIsDigit (rstripDots (ln.takeWhile (fun c => !(c == ' ')))) = false →
      stripNumberLine ln = ln) := by
  obtain ⟨g, gs, hg⟩ := splitSep_exists_cons ' ' ln
  have hhead : g = ln.takeWhile (fun c => !(c == ' ')) := by
    have hh := splitSep_headI ' ' ln
    rw [hg] at hh
    simpa using hh
  have htail : joinSep ' ' gs = ln.drop ((ln.takeWhile (fun c => !(c == ' '))).length + 1) := by
    have ht := joinSep_tail_splitSep ' ' ln
    rw [hg] at ht
    simpa using ht
  have hstep : stripNumberLine ln = if pyIsDigit (rstripDots g) then joinSep ' ' gs else ln := by
    unfold stripNumberLine
    rw [hg]
  rw [hhead] at hstep
  constructor
  · intro hd
    rw [hstep, if_pos hd]
    exact htail
  · intro hd
    rw [hstep, if_neg (by simp [hd])]

/-- Witness for the amended C10 at a concrete input: the year token of
a genuine content line is removed. -/
theorem numbering_strip_drops_first_space_token_w :
    pyIsDigit (rstripDots ((['2', '0', '2', '3', ' ', 'o', 'k'] : List Char).takeWhile
      (fun c => !(c == ' ')))) = true ∧
      stripNumberLine ['2', '0', '2', '3', ' ', 'o', 'k'] = ['o', 'k'] := by
  refine ⟨by decide, ?_⟩
  rw [(numbering_strip_drops_first_space_token ['2', '0', '2', '3', ' ', 'o', 'k']).1 (by decide)]
  decide

/-! Job lifecycle and compositing stage claims. -/

/-- C5: a job record is created with status burning; the single
background update moves it to done or to error, never back to burning;
over any polling sequence the observed status starts at burning (while
reads precede the update), never changes except by that single step,
never reverts, and never takes another value. -/
theorem job_status_monotonic (tr : List Char) (r : Except (List Char) (List Char)) (t : Nat) :
    (mkJob tr).status = JobStatus.burning ∧
    ((_background_burn r (mkJob tr)).status = JobStatus.done ∨
      (_background_burn r (mkJob tr)).status = JobStatus.error) ∧
    (∀ n, statusTrace tr r t n = JobStatus.burning ∨
      statusTrace tr r t n = (_background_burn r (mkJob tr)).status) ∧
    (∀ i j, i ≤ j → statusTrace tr r t j = JobStatus.burning →
      statusTrace tr r t i = JobStatus.burning) ∧
    (∀ i j, i ≤ j → statusTrace tr r t i ≠ JobStatus.burning →
      statusTrace tr r t j = statusTrace tr r t i) := by
  have hfin : (_background_burn r (mkJob tr)).status = JobStatus.done ∨
      (_background_burn r (mkJob tr)).status = JobStatus.error := by
    cases r with
    | ok out => left; rfl
    | error e => right; rfl
  refine ⟨rfl, hfin, ?_, ?_, ?_⟩
  · intro n
    unfold statusTrace
    by_cases hn : n < t
    · left; rw [if_pos hn]; rfl
    · right; rw [if_neg hn]
  · intro i j hij hj
    unfold statusTrace at hj ⊢
    by_cases hi : i < t
    · rw [if_pos hi]; rfl
    · have hjt : ¬ j < t := by omega
      rw [if_neg hjt] at hj
      rw [if_neg hi]
      exact hj
  · intro i j hij hi
    unfold statusTrace at hi ⊢
    by_cases hit : i < t
    · rw [if_pos hit] at hi
      exact absurd rfl hi
    · have hjt : ¬ j < t := by omega
      rw [if_neg hit, if_neg hjt]

/-- Witness for C5 at a concrete input: once a poll has observed a
terminal status, a later poll observes the same status. -/
theorem job_status_monotonic_w :
    (1 : Nat) ≤ 2 ∧ statusTrace [] (Except.ok []) 1 1 ≠ JobStatus.burning ∧
      statusTrace [] (Except.ok []) 1 2 = statusTrace [] (Except.ok []) 1 1 :=
  ⟨by decide, by decide,
    (job_status_monotonic [] (Except.ok []) 1).2.2.2.2 1 2 (by decide) (by decide)⟩

/-- C6: when the encoder invocation fails with some diagnostic output,
the background task writes terminal status error and the wrapped
diagnostic text into the job record, and the synchronous upload
response, computed before the background task runs, is the job
identifier whatever the burn outcome is. -/
theorem compositing_failure_recorded (jobId tr stderr : List Char) (video : PyPath)
    (lang : List Char) :
    (uploadFlow jobId tr (burn_subtitles_result (Except.error stderr) video lang)).2.status =
      JobStatus.error ∧
    (uploadFlow jobId tr (burn_subtitles_result (Except.error stderr) video lang)).2.error =
      some (ffmpegErrMsg stderr) ∧
    (∀ r r2 : Except (List Char) (List Char),
      (uploadFlow jobId tr r).1 = (uploadFlow jobId tr r2).1) := by
  exact ⟨rfl, rfl, fun r r2 => rfl⟩

/-- C7: when there are no segments or every segment text strips to
empty, the transcription stage skips translation entirely: the result
does not depend on the translation collaborator at all, the segments
are returned untranslated, the SRT content is written from them
directly, and the SRT file name still carries the requested target
language suffix. -/
theorem empty_transcript_fast_path (stem : List Char) (segs : List Segment) (lang : List Char)
    (h : segs = [] ∨ ∀ s ∈ segs, pyStrip s.text = []) :
    (∀ resps resps2 : Nat → List Char,
      transcribe_video stem segs resps lang = transcribe_video stem segs resps2 lang) ∧
    (∀ resps : Nat → List Char,
      (transcribe_video stem segs resps lang).segments = segs ∧
      (transcribe_video stem segs resps lang).srtContent = _write_srt segs ∧
      (transcribe_video stem segs resps lang).srtName =
        stem ++ '.' :: (lang ++ '.' :: ['s', 'r', 't'])) := by
  constructor
  · intro resps resps2
    unfold transcribe_video
    rw [if_pos h, if_pos h]
  · intro resps
    unfold transcribe_video
    rw [if_pos h]
    exact ⟨rfl, rfl, rfl⟩

/-- Witness for C7 at a concrete input: one whitespace-only segment. -/
theorem empty_transcript_fast_path_w :
    ((([⟨0, 1, [' '], none⟩] : List Segment) = [] ∨
        ∀ s ∈ ([⟨0, 1, [' '], none⟩] : List Segment), pyStrip s.text = []) ∧
      (transcribe_video ['v'] [⟨0, 1, [' '], none⟩] (fun _ => ['z']) ['e', 'n']).segments =
        [⟨0, 1, [' '], none⟩]) := by
  refine ⟨Or.inr (by decide), ?_⟩
  exact ((empty_transcript_fast_path ['v'] [⟨0, 1, [' '], none⟩] ['e', 'n']
    (Or.inr (by decide))).2 (fun _ => ['z'])).1

/-- C8 counterexample: for a source video with extension avi the
compositing output name ends in mp4 and therefore does not follow the
claimed convention stem dot language underscore burned dot
source-extension. -/
theorem burn_output_name_ext_cex :
    burnOutName ⟨['c', 'l', 'i', 'p'], ['a', 'v', 'i']⟩ ['e', 'n'] ≠
      specBurnName ['c', 'l', 'i', 'p'] ['e', 'n'] ['a', 'v', 'i'] := by
  decide

/-- C8 as amended: the compositing output name is always
stem dot language underscore burned dot mp4, with the literal extension
mp4 independent of the source video extension. -/
theorem burn_output_name_always_mp4 (video : PyPath) (lang : List Char) :
    burnOutName video lang = specBurnName video.stem lang (("mp4").data) ∧
    (∀ ext2 : List Char, burnOutName ⟨video.stem, ext2⟩ lang = burnOutName video lang) := by
  constructor
  · show video.stem ++ '.' :: (lang ++ ("_burned.mp4").data) =
      video.stem ++ '.' :: (lang ++ ("_burned.").data ++ ("mp4").data)
    congr 1
    simp
  · intro ext2
    rfl

/-! Decimal rendering lemmas and the timestamp format claim. -/

theorem dchar_props (d : Nat) (h : d < 10) :
    isDigitCh (dchar d) = true ∧ digitVal (dchar d) = d ∧
      dchar d ≠ '\n' ∧ dchar d ≠ ' ' := by
  interval_cases d <;> decide

theorem digitsRev_eq_digits (fuel : Nat) :
    ∀ n : Nat, n ≤ fuel → digitsRev fuel n = Nat.digits 10 n := by
  induction fuel with
  | zero =>
    intro n h
    have h0 : n = 0 := by omega
    subst h0
    simp [digitsRev]
  | succ fuel ih =>
    intro n h
    cases n with
    | zero => simp [digitsRev]
    | succ m =>
      have hdiv : (m + 1) / 10 ≤ fuel := by
        have := Nat.div_lt_self (Nat.succ_pos m) (by norm_num : 1 < 10)
        omega
      rw [digitsRev, ih _ hdiv, Nat.digits_def' (by norm_num : 1 < 10) (Nat.succ_pos m)]

theorem natChars_eq_digits (n : Nat) :
    natChars n = if n = 0 then [dchar 0] else ((Nat.digits 10 n).map dchar).reverse := by
  rw [natChars, digitsRev_eq_digits n n le_rfl]

theorem mem_natChars {c : Char} {n : Nat} (h : c ∈ natChars n) :
    ∃ d, d < 10 ∧ c = dchar d := by
  rw [natChars_eq_digits] at h
  by_cases h0 : n = 0
  · rw [if_pos h0] at h
    simp at h
    exact ⟨0, by omega, h⟩
  · rw [if_neg h0] at h
    rw [List.mem_reverse] at h
    obtain ⟨d, hd, rfl⟩ := List.mem_map.mp h
    exact ⟨d, Nat.digits_lt_base (by norm_num) hd, rfl⟩

theorem natChars_ne_nil (n : Nat) : natChars n ≠ [] := by
  rw [natChars_eq_digits]
  by_cases h0 : n = 0
  · rw [if_pos h0]; simp
  · rw [if_neg h0]
    simp [Nat.digits_ne_nil_iff_ne_zero, h0]

theorem natChars_length_le {n k : Nat} (hk : 1 ≤ k) (h : n < 10 ^ k) :
    (natChars n).length ≤ k := by
  rw [natChars_eq_digits]
  by_cases h0 : n = 0
  · rw [if_pos h0]; simpa using hk
  · rw [if_neg h0]
    simp only [List.length_reverse, List.length_map]
    by_contra hgt
    push_neg at hgt
    have h1 : 10 ^ (Nat.digits 10 n).length ≤ 10 * n :=
      Nat.base_pow_length_digits_le 10 n (by norm_num) h0
    have h2 : 10 ^ (k + 1) ≤ 10 ^ (Nat.digits 10 n).length :=
      Nat.pow_le_pow_right (by norm_num) (by omega)
    have h3 : 10 ^ (k + 1) = 10 ^ k * 10 := pow_succ 10 k
    have h4 : 10 ^ k * 10 ≤ 10 * n := by
      rw [← h3]
      exact le_trans h2 h1
    omega

theorem natChars_length_le_two {n : Nat} (h : n < 100) : (natChars n).length ≤ 2 := by
  have h2 : (10 : Nat) ^ 2 = 100 := by norm_num
  exact natChars_length_le (by norm_num) (by rw [h2]; exact h)

theorem natChars_length_le_three {n : Nat} (h : n < 1000) : (natChars n).length ≤ 3 := by
  have h3 : (10 : Nat) ^ 3 = 1000 := by norm_num
  exact natChars_length_le (by norm_num) (by rw [h3]; exact h)

/-- C3: for every nonnegative duration in seconds, the rendered
timestamp equals the spec format HH:MM:SS,mmm computed from the
millisecond count obtained by truncation, truncation here being the
floor since the value is nonnegative; all fields are zero padded to 2,
2, 2 and 3 digits, and the whole string has exactly 12 characters
whenever the hour count fits in two digits. -/
theorem srt_time_matches_spec (q : ℚ) (hq : 0 ≤ q) :
    pyInt (q * 1000) = ⌊q * 1000⌋ ∧
    _srt_time q = specTimestamp (⌊q * 1000⌋).toNat ∧
    ((⌊q * 1000⌋).toNat / 3600000 < 100 → (_srt_time q).length = 12) := by
  have hq1000 : (0 : ℚ) ≤ q * 1000 := by positivity
  have hpy : pyInt (q * 1000) = ⌊q * 1000⌋ := if_pos hq1000
  have hbody : _srt_time q = specTimestamp (⌊q * 1000⌋).toNat := by
    unfold _srt_time specTimestamp
    rw [hpy]
    dsimp only
    set ms := (⌊q * 1000⌋).toNat with hms
    have e1 : ms % 3600000 / 60000 = ms / 60000 % 60 := by
      have e := Nat.mod_mul_right_div_self ms 60000 60
      norm_num at e
      exact e
    have e2 : ms % 60000 / 1000 = ms / 1000 % 60 := by
      have e := Nat.mod_mul_right_div_self ms 1000 60
      norm_num at e
      exact e
    rw [e1, e2]
  refine ⟨hpy, hbody, ?_⟩
  intro hh
  rw [hbody]
  unfold specTimestamp
  set ms := (⌊q * 1000⌋).toNat with hms
  have l1 : (natChars (ms / 3600000)).length ≤ 2 := natChars_length_le_two hh
  have l2 : (natChars (ms / 60000 % 60)).length ≤ 2 := natChars_length_le_two (by omega)
  have l3 : (natChars (ms / 1000 % 60)).length ≤ 2 := natChars_length_le_two (by omega)
  have l4 : (natChars (ms % 1000)).length ≤ 3 := natChars_length_le_three (by omega)
  simp only [padZero, List.length_append, List.length_cons, List.length_replicate]
  omega

/-- Witness for C3 at a concrete input: three and a half seconds. -/
theorem srt_time_matches_spec_w :
    (0 : ℚ) ≤ 7 / 2 ∧ _srt_time (7 / 2) = specTimestamp 3500 := by
  refine ⟨by norm_num, ?_⟩
  have h := (srt_time_matches_spec (7 / 2) (by norm_num)).2.1
  have hf : ((⌊(7 / 2 : ℚ) * 1000⌋).toNat : Nat) = 3500 := by
    norm_num
    rfl
  rw [h, hf]

/-! Character facts about the rendered timestamp and index lines. -/

theorem mem_padZero {c : Char} {w : Nat} {cs : List Char} (h : c ∈ padZero w cs) :
    c = '0' ∨ c ∈ cs := by
  unfold padZero at h
  rcases List.mem_append.mp h with h | h
  · left; exact List.eq_of_mem_replicate h
  · right; exact h

theorem padZero_natChars_chars {c : Char} {w n : Nat} (h : c ∈ padZero w (natChars n)) :
    c ≠ '\n' ∧ c ≠ ' ' := by
  rcases mem_padZero h with h0 | hm
  · subst h0; exact ⟨by decide, by decide⟩
  · obtain ⟨d, hd, rfl⟩ := mem_natChars hm
    exact ⟨(dchar_props d hd).2.2.1, (dchar_props d hd).2.2.2⟩

theorem natChars_no_nl {c : Char} {n : Nat} (h : c ∈ natChars n) : c ≠ '\n' := by
  obtain ⟨d, hd, rfl⟩ := mem_natChars h
  exact (dchar_props d hd).2.2.1

theorem srt_time_chars {c : Char} {q : ℚ} (h : c ∈ _srt_time q) : c ≠ '\n' ∧ c ≠ ' ' := by
  unfold _srt_time at h
  simp only [List.mem_append, List.mem_cons] at h
  rcases h with h | h | h | h | h | h | h
  · exact padZero_natChars_chars h
  · subst h; exact ⟨by decide, by decide⟩
  · exact padZero_natChars_chars h
  · subst h; exact ⟨by decide, by decide⟩
  · exact padZero_natChars_chars h
  · subst h; exact ⟨by decide, by decide⟩
  · exact padZero_natChars_chars h

theorem srt_time_ne_nil (q : ℚ) : _srt_time q ≠ [] := by
  unfold _srt_time
  simp

theorem tsLine_ne_nil (s : Segment) : tsLine s ≠ [] := by
  simp [tsLine, srt_time_ne_nil]

theorem tsLine_no_nl {c : Char} {s : Segment} (h : c ∈ tsLine s) : c ≠ '\n' := by
  unfold tsLine arrowSep at h
  rcases List.mem_append.mp h with h | h
  · rcases List.mem_append.mp h with h | h
    · exact (srt_time_chars h).1
    · intro he
      subst he
      exact absurd h (by decide)
  · exact (srt_time_chars h).1

/-! Parsing lemmas for the round trip. -/

theorem takeWhile_append_cons {α : Type} (p : α → Bool) (a : List α) (b : α) (t : List α)
    (ha : ∀ x ∈ a, p x = true) (hb : p b = false) :
    (a ++ b :: t).takeWhile p = a := by
  induction a with
  | nil => simp [List.takeWhile_cons, hb]
  | cons x a ih =>
    have hx := ha x (List.mem_cons_self _ _)
    simp [List.takeWhile_cons, hx, ih (fun y hy => ha y (List.mem_cons_of_mem _ hy))]

theorem dropWhile_append_cons {α : Type} (p : α → Bool) (a : List α) (b : α) (t : List α)
    (ha : ∀ x ∈ a, p x = true) (hb : p b = false) :
    (a ++ b :: t).dropWhile p = b :: t := by
  induction a with
  | nil => simp [List.dropWhile_cons, hb]
  | cons x a ih =>
    have hx := ha x (List.mem_cons_self _ _)
    simp [List.dropWhile_cons, hx, ih (fun y hy => ha y (List.mem_cons_of_mem _ hy))]

theorem foldl_digits (ds : List Nat) (hds : ∀ d ∈ ds, d < 10) :
    ∀ a : Nat, ((ds.map dchar).reverse).foldl (fun acc c => 10 * acc + digitVal c) a =
      Nat.ofDigits 10 ds + a * 10 ^ ds.length := by
  induction ds with
  | nil => intro a; simp
  | cons d ds ih =>
    intro a
    have hd : d < 10 := hds d (List.mem_cons_self _ _)
    have hds2 : ∀ x ∈ ds, x < 10 := fun x hx => hds x (List.mem_cons_of_mem _ hx)
    simp only [List.map_cons, List.reverse_cons, List.foldl_append, List.foldl_cons,
      List.foldl_nil]
    rw [ih hds2 a, (dchar_props d hd).2.1, Nat.ofDigits_cons, List.length_cons, pow_succ]
    ring

theorem parseNat_natChars (n : Nat) : parseNat (natChars n) = some n := by
  by_cases h0 : n = 0
  · subst h0; decide
  · have hlt : ∀ d ∈ Nat.digits 10 n, d < 10 := fun d hd =>
      Nat.digits_lt_base (by norm_num) hd
    have hfold := foldl_digits (Nat.digits 10 n) hlt 0
    rw [Nat.ofDigits_digits] at hfold
    simp only [Nat.zero_mul, Nat.add_zero] at hfold
    have hA : natChars n = ((Nat.digits 10 n).map dchar).reverse := by
      rw [natChars_eq_digits, if_neg h0]
    have hall : (natChars n).all isDigitCh = true := by
      rw [List.all_eq_true]
      intro c hc
      obtain ⟨d, hd, rfl⟩ := mem_natChars hc
      exact (dchar_props d hd).1
    have hne : (natChars n).isEmpty = false := by
      rw [List.isEmpty_eq_false]
      exact natChars_ne_nil n
    unfold parseNat
    rw [hall, hne]
    simp only [Bool.not_false, Bool.true_and, if_pos]
    rw [hA, hfold]

theorem parseRange_tsLine (s : Segment) :
    parseRange (tsLine s) = some (_srt_time s.start, _srt_time s.stop) := by
  have hts : tsLine s = _srt_time s.start ++
      ' ' :: ('-' :: ('-' :: ('>' :: (' ' :: _srt_time s.stop)))) := by
    simp [tsLine, arrowSep]
  have hallA : ∀ x ∈ _srt_time s.start, (!(x == ' ')) = true := by
    intro x hx
    simp [(srt_time_chars hx).2]
  unfold parseRange
  rw [hts, dropWhile_append_cons _ _ _ _ hallA (by decide),
    takeWhile_append_cons _ _ _ _ hallA (by decide)]
  rfl

/-! Structure of the serialized SRT text: lines and groups. -/

theorem splitNl_writeSrtFrom (segs : List Segment) :
    ∀ i : Nat, splitSep '\n' (writeSrtFrom i segs) = blockLinesFrom i segs := by
  induction segs with
  | nil => intro i; rfl
  | cons s rest ih =>
    intro i
    have hno1 : '\n' ∉ natChars i := fun hm => natChars_no_nl hm rfl
    have hno2 : '\n' ∉ tsLine s := fun hm => tsLine_no_nl hm rfl
    have harr : writeSrtFrom i (s :: rest) =
        natChars i ++ '\n' :: (tsLine s ++ '\n' ::
          (pyStrip s.text ++ '\n' :: ('\n' :: writeSrtFrom (i + 1) rest))) := by
      show blockChars i s ++ writeSrtFrom (i + 1) rest = _
      simp [blockChars, List.append_assoc]
    have hW : splitSep '\n' ('\n' :: writeSrtFrom (i + 1) rest) =
        [] :: splitSep '\n' (writeSrtFrom (i + 1) rest) := by
      simp [splitSep]
    rw [harr, splitSep_append_cons, splitSep_single hno1,
      splitSep_append_cons, splitSep_single hno2, splitSep_append_cons, hW, ih]
    simp [blockLinesFrom]

theorem filter_groups_blockLines (segs : List Segment) :
    ∀ i : Nat,
      (∀ s ∈ segs, pyStrip s.text = [] ∨ ([] : List Char) ∉ splitSep '\n' (pyStrip s.text)) →
      (splitSep ([] : List Char) (blockLinesFrom i segs)).filter (fun g => !g.isEmpty) =
        groupsExpected i segs := by
  induction segs with
  | nil => intro i h; rfl
  | cons s rest ih =>
    intro i h
    have hrest := fun s2 hm => h s2 (List.mem_cons_of_mem _ hm)
    rcases h s (List.mem_cons_self _ _) with hempty | hgood
    · have harr : blockLinesFrom i (s :: rest) =
          [natChars i, tsLine s] ++ ([] : List Char) ::
            (([] : List Char) :: blockLinesFrom (i + 1) rest) := by
        simp [blockLinesFrom, hempty, splitSep]
      have hsingle : splitSep ([] : List Char) [natChars i, tsLine s] =
          [[natChars i, tsLine s]] := by
        apply splitSep_single
        intro hm
        rcases List.mem_cons.mp hm with hm | hm
        · exact natChars_ne_nil i hm.symm
        · rcases List.mem_cons.mp hm with hm | hm
          · exact tsLine_ne_nil s hm.symm
          · simp at hm
      have htail : splitSep ([] : List Char)
          (([] : List Char) :: blockLinesFrom (i + 1) rest) =
          [] :: splitSep ([] : List Char) (blockLinesFrom (i + 1) rest) := by
        simp [splitSep]
      rw [harr, splitSep_append_cons, hsingle, htail, List.filter_append]
      simp [List.filter_cons, groupsExpected, txtLinesOf, hempty, ih (i + 1) hrest]
    · have hne : pyStrip s.text ≠ [] := by
        intro he
        apply hgood
        rw [he]
        simp [splitSep]
      have harr : blockLinesFrom i (s :: rest) =
          (natChars i :: tsLine s :: splitSep '\n' (pyStrip s.text)) ++
            ([] : List Char) :: blockLinesFrom (i + 1) rest := by
        simp [blockLinesFrom]
      have hsingle : splitSep ([] : List Char)
          (natChars i :: tsLine s :: splitSep '\n' (pyStrip s.text)) =
          [natChars i :: tsLine s :: splitSep '\n' (pyStrip s.text)] := by
        apply splitSep_single
        intro hm
        rcases List.mem_cons.mp hm with hm | hm
        · exact natChars_ne_nil i hm.symm
        · rcases List.mem_cons.mp hm with hm | hm
          · exact tsLine_ne_nil s hm.symm
          · exact hgood hm
      rw [harr, splitSep_append_cons, hsingle, List.filter_append]
      simp [List.filter_cons, groupsExpected, txtLinesOf, hne, ih (i + 1) hrest]

theorem parseGroups_groupsExpected (segs : List Segment) :
    ∀ i : Nat, parseGroups (groupsExpected i segs) = some (expectedBlocks i segs) := by
  induction segs with
  | nil => intro i; rfl
  | cons s rest ih =>
    intro i
    have htxt : joinSep '\n' (txtLinesOf s) = pyStrip s.text := by
      unfold txtLinesOf
      by_cases he : pyStrip s.text = []
      · rw [if_pos he, he]; rfl
      · rw [if_neg he, joinSep_splitSep]
    have hpg : parseGroup (natChars i :: tsLine s :: txtLinesOf s) =
        some ⟨i, _srt_time s.start, _srt_time s.stop, pyStrip s.text⟩ := by
      simp only [parseGroup, parseNat_natChars, parseRange_tsLine, htxt]
    simp only [groupsExpected, parseGroups, hpg, ih (i + 1), expectedBlocks]

theorem expectedBlocks_length (segs : List Segment) :
    ∀ i, (expectedBlocks i segs).length = segs.length := by
  induction segs with
  | nil => intro i; rfl
  | cons s rest ih => intro i; simp [expectedBlocks, ih (i + 1)]

theorem expectedBlocks_map_index (segs : List Segment) :
    ∀ i, (expectedBlocks i segs).map Block.index = List.range' i segs.length := by
  induction segs with
  | nil => intro i; rfl
  | cons s rest ih => intro i; simp [expectedBlocks, List.range'_succ, ih (i + 1)]

theorem expectedBlocks_map_start (segs : List Segment) :
    ∀ i, (expectedBlocks i segs).map Block.startTs = segs.map (fun s => _srt_time s.start) := by
  induction segs with
  | nil => intro i; rfl
  | cons s rest ih => intro i; simp [expectedBlocks, ih (i + 1)]

theorem expectedBlocks_map_stop (segs : List Segment) :
    ∀ i, (expectedBlocks i segs).map Block.endTs = segs.map (fun s => _srt_time s.stop) := by
  induction segs with
  | nil => intro i; rfl
  | cons s rest ih => intro i; simp [expectedBlocks, ih (i + 1)]

theorem parseGroups_none_tail (g : List (List Char)) (gs : List (List (List Char)))
    (h : parseGroups gs = none) : parseGroups (g :: gs) = none := by
  simp only [parseGroups, h]
  cases parseGroup g <;> rfl

/-- C4 counterexample: a single segment whose text contains a blank
line serializes to a file the SRT consumer cannot parse back into one
block per segment; parsing fails instead of returning one block. -/
theorem serialize_parse_cex :
    parseSrt (_write_srt [⟨0, 1, ['a', '\n', '\n', 'b'], none⟩]) = none := by
  have hne : tsLine ⟨0, 1, ['a', '\n', '\n', 'b'], none⟩ ≠ [] := tsLine_ne_nil _
  unfold parseSrt _write_srt
  rw [splitNl_writeSrtFrom]
  have hbl : blockLinesFrom 1 [⟨0, 1, ['a', '\n', '\n', 'b'], none⟩] =
      (natChars 1 :: tsLine ⟨0, 1, ['a', '\n', '\n', 'b'], none⟩ :: [['a']]) ++
        ([] : List Char) :: ([['b']] ++ ([] : List Char) :: [[]]) := by
    have h1 : pyStrip (['a', '\n', '\n', 'b'] : List Char) = ['a', '\n', '\n', 'b'] := by
      decide
    have h2 : splitSep '\n' (['a', '\n', '\n', 'b'] : List Char) = [['a'], [], ['b']] := by
      decide
    simp [blockLinesFrom, h1, h2]
  have hG1 : ([] : List Char) ∉
      (natChars 1 :: tsLine ⟨0, 1, ['a', '\n', '\n', 'b'], none⟩ :: [['a']]) := by
    intro hm
    rcases List.mem_cons.mp hm with hm | hm
    · exact natChars_ne_nil 1 hm.symm
    · rcases List.mem_cons.mp hm with hm | hm
      · exact hne hm.symm
      · simp at hm
  have hG2 : ([] : List Char) ∉ [(['b'] : List Char)] := by decide
  have h3 : splitSep ([] : List Char) [([] : List Char)] = [[], []] := by decide
  rw [hbl, splitSep_append_cons, splitSep_append_cons, splitSep_single hG1,
    splitSep_single hG2, h3, List.filter_append, List.filter_append,
    List.filter_cons_of_pos (by rfl), List.filter_nil,
    List.filter_cons_of_pos (by rfl), List.filter_nil]
  have h4 : List.filter (fun g => !g.isEmpty) [([] : List (List Char)), []] = [] := by decide
  rw [h4]
  simp only [List.append_nil, List.singleton_append]
  exact parseGroups_none_tail _ _ (by decide)

/-- C4 as amended: for every segment list in which no stripped segment
text contains a blank line, serializing and parsing back yields exactly
one block per segment, in order, numbered sequentially from 1, with
each block carrying the truncated-millisecond renderings of the
corresponding segment start and end times. -/
theorem serialize_parse_roundtrip (segs : List Segment)
    (h : ∀ s ∈ segs, pyStrip s.text = [] ∨ ([] : List Char) ∉ splitSep '\n' (pyStrip s.text)) :
    parseSrt (_write_srt segs) = some (expectedBlocks 1 segs) ∧
    (expectedBlocks 1 segs).length = segs.length ∧
    (expectedBlocks 1 segs).map Block.index = List.range' 1 segs.length ∧
    (expectedBlocks 1 segs).map Block.startTs = segs.map (fun s => _srt_time s.start) ∧
    (expectedBlocks 1 segs).map Block.endTs = segs.map (fun s => _srt_time s.stop) := by
  refine ⟨?_, expectedBlocks_length segs 1, expectedBlocks_map_index segs 1,
    expectedBlocks_map_start segs 1, expectedBlocks_map_stop segs 1⟩
  unfold parseSrt _write_srt
  rw [splitNl_writeSrtFrom segs 1, filter_groups_blockLines segs 1 h,
    parseGroups_groupsExpected segs 1]

/-- Witness for the amended C4 at a concrete input: one ordinary
segment round trips. -/
theorem serialize_parse_roundtrip_w :
    (∀ s ∈ ([⟨0, 1, ['h', 'i'], none⟩] : List Segment),
        pyStrip s.text = [] ∨ ([] : List Char) ∉ splitSep '\n' (pyStrip s.text)) ∧
      parseSrt (_write_srt [⟨0, 1, ['h', 'i'], none⟩]) =
        some (expectedBlocks 1 [⟨0, 1, ['h', 'i'], none⟩]) := by
  refine ⟨by decide, ?_⟩
  exact (serialize_parse_roundtrip [⟨0, 1, ['h', 'i'], none⟩] (by decide)).1

end VideoComm
